import Mathlib

/-!
Verification of the two-phase conference scheduler (`scheduler.py`).

The embedding models the placement core: `greedy_place_wgroups` (randomized
retry first-fit placement of working groups into an empty blocks × rooms
grid) and `fill_bofs` (a single fill pass over an existing grid).  Randomness
(Python's global `random` module) is modelled by an injectable stream
`Draws : Nat → List Nat`: each call to `random.shuffle` / `random.sample`
consumes one entry of the stream and interprets it as a sequence of
selection indices (`pickPerm`), so every permutation of the shuffled list is
reachable by some stream, and a fixed stream reproduces a fixed run.
The stream position is threaded explicitly (the `k : Nat` arguments).
-/

namespace Scheduler

/-- A session request: `(name, length)`, as read from the CSV files. -/
abbrev Req := String × Nat

/-- The schedule grid: `grid[block][room]` is `none` (free) or an occupying
session name, exactly as in the Python list-of-lists representation. -/
abbrev Grid := List (List (Option String))

/-- The injectable randomness source: the `k`-th random draw, interpreted by
`pickPerm` as a sequence of selection indices. -/
abbrev Draws := Nat → List Nat

/-- The `b`-th row of the grid (`[]` when out of range). -/
def rowAt (g : Grid) (b : Nat) : List (Option String) :=
  (g[b]?).getD []

/-- Read `grid[b][r]`; out-of-range reads yield `none`. -/
def cellAt (g : Grid) (b r : Nat) : Option String :=
  ((rowAt g b)[r]?).getD none

/-- Write `grid[b][r] = v`; out-of-range writes leave the grid unchanged
(the Python code only ever writes in range). -/
def setCell (g : Grid) (b r : Nat) (v : Option String) : Grid :=
  g.set b ((rowAt g b).set r v)

/-- `grid = [[None] * NUM_ROOMS for _ in range(NUM_BLOCKS)]`. -/
def emptyGrid (blocks rooms : Nat) : Grid :=
  List.replicate blocks (List.replicate rooms (none : Option String))

/-- Number of occupied (non-`None`) cells of the grid. -/
def countOcc (g : Grid) : Nat :=
  (g.map (fun row => row.countP (fun c => c.isSome))).sum

/-- Well-formedness: the grid really is a blocks × rooms matrix. -/
def GridWF (g : Grid) (blocks rooms : Nat) : Prop :=
  g.length = blocks ∧ ∀ row ∈ g, row.length = rooms

/-- Python truthiness of a cell (`None` and `""` are falsy), as used by
`any(row)` when computing the empty rows of a grid. -/
def cellTruthy : Option String → Bool
  | none => false
  | some s => !(s == "")

/-- `[idx for idx, row in enumerate(grid) if not any(row)]`. -/
def emptyRowsOf (g : Grid) : List Nat :=
  (List.range g.length).filter (fun i => !((rowAt g i).any cellTruthy))

/-- Model of `random.shuffle` / `random.sample(l, len(l))`: repeatedly pick
the element at index `i % remaining` and continue with the rest.  Every
permutation of the input is produced by some index list, and the result is
always a permutation of the input. -/
def pickPerm {α : Type} : List Nat → List α → List α
  | _, [] => []
  | [], x :: xs => x :: xs
  | i :: is, x :: xs =>
    let l := x :: xs
    let j := i % l.length
    l.getD j x :: pickPerm is (l.eraseIdx j)

/-- Stable insertion used by the stable sort below: insert `a` before the
first element `b` with `le a b`. -/
def ordInsert (le : Req → Req → Bool) (a : Req) : List Req → List Req
  | [] => [a]
  | b :: l => if le a b then a :: b :: l else b :: ordInsert le a l

/-- Stable sort by `le` (Python's `list.sort` is stable). -/
def insSort (le : Req → Req → Bool) : List Req → List Req
  | [] => []
  | a :: l => ordInsert le a (insSort le l)

/-- Descending by length: `a_list.sort(key=lambda x: -x[1])`. -/
def leDesc (a b : Req) : Bool := b.2 ≤ a.2

/-- Ascending by length: `a_list.sort(key=lambda x: x[1])`. -/
def leAsc (a b : Req) : Bool := a.2 ≤ b.2

/-- Re-order the shuffled list according to the sort strategy
(`largest_first` / `smallest_first` / anything else = `as_is`). -/
def sortStrategy (strat : String) (l : List Req) : List Req :=
  if strat = "largest_first" then insSort leDesc l
  else if strat = "smallest_first" then insSort leAsc l
  else l

/-- `range(0, NUM_BLOCKS - length + 1)`: the candidate start blocks for a
request of length `L` (empty when `L` exceeds the number of blocks, matching
the empty Python `range` on a negative bound). -/
def starts (blocks L : Nat) : List Nat :=
  if L ≤ blocks then List.range (blocks - L + 1) else []

/-- Build the candidate `(start_block, room)` list: for each start block in
order, shuffle the rooms (one draw per start block) and append the pairs. -/
def mkCands (rooms : Nat) (σ : Draws) : List Nat → Nat → List (Nat × Nat) × Nat
  | [], k => ([], k)
  | s :: rest, k =>
    let shuf := pickPerm (σ k) (List.range rooms)
    let t := mkCands rooms σ rest (k + 1)
    (shuf.map (fun r => (s, r)) ++ t.1, t.2)

/-- `all(grid[blk + offset][rms] is None for offset in range(length))`. -/
def runFree (g : Grid) (b r L : Nat) : Bool :=
  (List.range L).all (fun o => (cellAt g (b + o) r).isNone)

/-- Scan the candidate list and return the first candidate whose whole run
of `L` cells is free. -/
def firstFit (g : Grid) (L : Nat) : List (Nat × Nat) → Option (Nat × Nat)
  | [] => none
  | c :: cs => if runFree g c.1 c.2 L then some c else firstFit g L cs

/-- One request's candidate generation followed by the first-fit scan;
returns the chosen `(start_block, room)` (or `none`) and the next stream
position. -/
def placeReq (blocks rooms : Nat) (g : Grid) (L : Nat) (σ : Draws) (k : Nat) :
    Option (Nat × Nat) × Nat :=
  let c := mkCands rooms σ (starts blocks L) k
  (firstFit g L c.1, c.2)

/-- `for offset in range(length): grid[blk + offset][rms] = name`. -/
def occupy (g : Grid) (name : String) (b r : Nat) : Nat → Grid
  | 0 => g
  | L + 1 => setCell (occupy g name b r L) (b + L) r (some name)

/-- The per-attempt placement loop over the ordered request list; on the
first request with no free candidate the attempt is abandoned and the
failing name reported. -/
def placeAll (blocks rooms : Nat) (σ : Draws) :
    List Req → Grid → Nat → Except String Grid × Nat
  | [], g, k => (.ok g, k)
  | (name, L) :: rest, g, k =>
    let p := placeReq blocks rooms g L σ k
    match p.1 with
    | some br => placeAll blocks rooms σ rest (occupy g name br.1 br.2 L) p.2
    | none => (.error name, p.2)

/-- One attempt: shuffle the requests, apply the sort strategy, and place
them one by one into a fresh empty grid. -/
def attemptOnce (blocks rooms : Nat) (strat : String) (σ : Draws)
    (wgroups : List Req) (k : Nat) : Except String Grid × Nat :=
  let shuffled := pickPerm (σ k) wgroups
  let a_list := sortStrategy strat shuffled
  placeAll blocks rooms σ a_list (emptyGrid blocks rooms) (k + 1)

/-- Outcome of `greedy_place_wgroups`.  `capacityExceeded` and
`placementFailed` model the corresponding `sys.exit` calls;
`nameError` models the `NameError` Python would raise when
`max_tries = 0` (the final `sys.exit` reads the loop variable
`failed_name` that was never assigned). -/
inductive GreedyResult where
  | capacityExceeded (total cap : Nat)
  | placementFailed (name : String) (tries : Nat)
  | nameError
  | success (grid : Grid) (emptyRows : List Nat) (attempts : Nat)
deriving DecidableEq

/-- The retry loop (`for attempt in range(1, max_tries + 1)`), with the
remaining number of tries as fuel and the 1-based attempt counter. -/
def greedyLoop (blocks rooms : Nat) (strat : String) (σ : Draws)
    (wgroups : List Req) : Nat → Nat → Nat → GreedyResult × Nat
  | 0, _, k => (.nameError, k)
  | fuel + 1, attemptNo, k =>
    match attemptOnce blocks rooms strat σ wgroups k with
    | (.ok g, k2) => (.success g (emptyRowsOf g) attemptNo, k2)
    | (.error name, k2) =>
      if fuel = 0 then (.placementFailed name attemptNo, k2)
      else greedyLoop blocks rooms strat σ wgroups fuel (attemptNo + 1) k2

/-- `greedy_place_wgroups(wgroups, max_tries, sort_strategy)`: capacity
check, then up to `maxTries` randomized attempts.  Also returns the final
stream position (Python's global RNG state). -/
def greedy_place_wgroups (blocks rooms : Nat) (wgroups : List Req)
    (maxTries : Nat) (strat : String) (σ : Draws) (k : Nat) :
    GreedyResult × Nat :=
  let total := (wgroups.map (fun x => x.2)).sum
  if blocks * rooms < total then (.capacityExceeded total (blocks * rooms), k)
  else greedyLoop blocks rooms strat σ wgroups maxTries 1 k

/-- The fill pass over the ordered BOF list: place each request first-fit,
collect the names of unplaceable requests (in processing order). -/
def fillLoop (blocks rooms : Nat) (σ : Draws) :
    List Req → Grid → Nat → (Grid × List String) × Nat
  | [], g, k => ((g, []), k)
  | (name, L) :: rest, g, k =>
    let p := placeReq blocks rooms g L σ k
    match p.1 with
    | some br => fillLoop blocks rooms σ rest (occupy g name br.1 br.2 L) p.2
    | none =>
      let t := fillLoop blocks rooms σ rest g p.2
      ((t.1.1, name :: t.1.2), t.2)

/-- `fill_bofs(grid, bofs, sort_strategy)`: shuffle and sort the fill list,
then run the single fill pass on (a copy of) the grid.  Returns
`((new_grid, leftovers), next stream position)`. -/
def fill_bofs (blocks rooms : Nat) (grid : Grid) (bofs : List Req)
    (strat : String) (σ : Draws) (k : Nat) : (Grid × List String) × Nat :=
  let bl := sortStrategy strat (pickPerm (σ k) bofs)
  fillLoop blocks rooms σ bl grid (k + 1)

/-- The two-phase pipeline (WG placement, then BOF fill, as dispatched by
the `has_w and has_b` branch of `__main__`): on WG success, run the fill
pass from the stream position where the WG phase stopped. -/
def pipelineRun (blocks rooms : Nat) (wgroups bofs : List Req)
    (maxTries : Nat) (strat : String) (σ : Draws) (k : Nat) :
    Option (Grid × List String × Nat) :=
  match greedy_place_wgroups blocks rooms wgroups maxTries strat σ k with
  | (.success g _ att, k2) =>
    let f := fill_bofs blocks rooms g bofs strat σ k2
    some (f.1.1, f.1.2, att)
  | _ => none

/-- Concrete randomness stream for witnesses: every draw is `[1]`, so each
shuffle moves the second element of its input list to the front. -/
def sigmaSwap : Draws := fun _ => [1]

/-- Concrete randomness stream for witnesses: every draw is `[]`, so each
shuffle keeps its input list in order. -/
def sigmaId : Draws := fun _ => []

/-- A fully occupied 5 × 8 grid (40/40 cells hold a session name). -/
def fullGrid58 : Grid := List.replicate 5 (List.replicate 8 (some "Z"))

/-! Basic lemmas about grid cells. -/

theorem rowAt_set_self {g : Grid} {b : Nat} {row : List (Option String)}
    (hb : b < g.length) : rowAt (g.set b row) b = row := by
  unfold rowAt
  rw [List.getElem?_set_self hb]
  rfl

theorem rowAt_set_ne {g : Grid} {b b' : Nat} {row : List (Option String)}
    (h : b' ≠ b) : rowAt (g.set b row) b' = rowAt g b' := by
  unfold rowAt
  rw [List.getElem?_set_ne (fun he => h he.symm)]

theorem cellAt_some_lt {g : Grid} {b r : Nat} {s : String}
    (h : cellAt g b r = some s) :
    b < g.length ∧ r < (rowAt g b).length := by
  unfold cellAt at h
  by_cases hr : r < (rowAt g b).length
  · refine ⟨?_, hr⟩
    by_cases hb : b < g.length
    · exact hb
    · exfalso
      have : rowAt g b = [] := by
        unfold rowAt
        rw [List.getElem?_eq_none (Nat.le_of_not_lt hb)]
        rfl
      rw [this] at hr
      exact absurd hr (by simp)
  · rw [List.getElem?_eq_none (Nat.le_of_not_lt hr)] at h
    exact absurd h (by simp)

theorem cellAt_setCell (g : Grid) (b r b' r' : Nat) (v : Option String) :
    cellAt (setCell g b r v) b' r' =
      if b' = b ∧ r' = r ∧ b < g.length ∧ r < (rowAt g b).length then v
      else cellAt g b' r' := by
  unfold setCell
  by_cases hb : b' = b
  · subst hb
    by_cases hlen : b' < g.length
    · unfold cellAt
      rw [rowAt_set_self hlen]
      by_cases hr : r' = r
      · subst hr
        by_cases hrlen : r' < (rowAt g b').length
        · rw [List.getElem?_set_self hrlen]
          simp [hlen, hrlen]
        · rw [List.set_eq_of_length_le (Nat.le_of_not_lt hrlen)]
          simp [hrlen]
      · rw [List.getElem?_set_ne (fun he => hr he.symm)]
        simp [hr]
    · rw [List.set_eq_of_length_le (Nat.le_of_not_lt hlen)]
      simp [hlen]
  · unfold cellAt
    rw [rowAt_set_ne hb]
    simp [hb]

theorem setCell_cellAt_ne {g : Grid} {b r b' r' : Nat} {v : Option String}
    (h : b' ≠ b ∨ r' ≠ r) :
    cellAt (setCell g b r v) b' r' = cellAt g b' r' := by
  rw [cellAt_setCell]
  rcases h with h | h <;> simp [h]

theorem setCell_cellAt_self {g : Grid} {b r : Nat} {v : Option String}
    (hb : b < g.length) (hr : r < (rowAt g b).length) :
    cellAt (setCell g b r v) b r = v := by
  rw [cellAt_setCell]
  simp [hb, hr]

theorem setCell_cellAt_or (g : Grid) (b r b' r' : Nat) (v : Option String) :
    cellAt (setCell g b r v) b' r' = cellAt g b' r' ∨
    cellAt (setCell g b r v) b' r' = v := by
  rw [cellAt_setCell]
  split
  · exact Or.inr rfl
  · exact Or.inl rfl

theorem GridWF_setCell {g : Grid} {blocks rooms b r : Nat} {v : Option String}
    (h : GridWF g blocks rooms) : GridWF (setCell g b r v) blocks rooms := by
  obtain ⟨hlen, hrow⟩ := h
  by_cases hb : b < g.length
  · refine ⟨by simpa [setCell] using hlen, ?_⟩
    intro row hmem
    rcases List.mem_or_eq_of_mem_set hmem with hmem | rfl
    · exact hrow row hmem
    · rw [List.length_set]
      refine hrow _ ?_
      have : rowAt g b = g[b] := by
        unfold rowAt
        rw [List.getElem?_eq_getElem hb]
        rfl
      rw [this]
      exact List.getElem_mem hb
  · unfold setCell
    rw [List.set_eq_of_length_le (Nat.le_of_not_lt hb)]
    exact ⟨hlen, hrow⟩


theorem rowAt_eq_getElem {g : Grid} {b : Nat} (hb : b < g.length) :
    rowAt g b = g[b] := by
  unfold rowAt
  rw [List.getElem?_eq_getElem hb]
  rfl

theorem cellAt_eq_getElem {g : Grid} {b r : Nat} (hr : r < (rowAt g b).length) :
    cellAt g b r = (rowAt g b)[r] := by
  unfold cellAt
  rw [List.getElem?_eq_getElem hr]
  rfl

theorem sum_set_add {l : List Nat} {i : Nat} (h : i < l.length) (a : Nat) :
    (l.set i a).sum + l[i] = l.sum + a := by
  induction l generalizing i with
  | nil => simp at h
  | cons x xs ih =>
    cases i with
    | zero => simp [List.sum_cons]; omega
    | succ n =>
      have hn : n < xs.length := by simpa using h
      have := ih hn
      simp only [List.set_cons_succ, List.sum_cons, List.getElem_cons_succ]
      omega

theorem countOcc_setCell {g : Grid} {b r : Nat} {s : String}
    (hb : b < g.length) (hr : r < (rowAt g b).length)
    (hfree : cellAt g b r = none) :
    countOcc (setCell g b r (some s)) = countOcc g + 1 := by
  unfold countOcc setCell
  set f : List (Option String) → Nat := fun row => row.countP (fun c => c.isSome) with hf
  rw [List.map_set]
  have hb2 : b < (g.map f).length := by simpa using hb
  have hsum := sum_set_add hb2 (f ((rowAt g b).set r (some s)))
  have hgb : (g.map f)[b] = f g[b] := List.getElem_map _
  have hrow : rowAt g b = g[b] := rowAt_eq_getElem hb
  have hcellval : (rowAt g b)[r] = (none : Option String) := by
    rw [← cellAt_eq_getElem hr]
    exact hfree
  have hfval : f ((rowAt g b).set r (some s)) = f (rowAt g b) + 1 := by
    rw [hf]
    simp only []
    rw [List.countP_set _ _ _ _ hr, hcellval]
    simp
  rw [← hrow] at hgb
  omega

theorem GridWF_rowAt_length {g : Grid} {blocks rooms : Nat}
    (h : GridWF g blocks rooms) {b : Nat} (hb : b < blocks) :
    (rowAt g b).length = rooms := by
  obtain ⟨hlen, hrow⟩ := h
  have hb2 : b < g.length := by omega
  rw [rowAt_eq_getElem hb2]
  exact hrow _ (List.getElem_mem hb2)

theorem runFree_iff {g : Grid} {b r L : Nat} :
    runFree g b r L = true ↔ ∀ o < L, cellAt g (b + o) r = none := by
  unfold runFree
  rw [List.all_eq_true]
  constructor
  · intro h o ho
    have := h o (List.mem_range.mpr ho)
    exact Option.isNone_iff_eq_none.mp this
  · intro h o ho
    exact Option.isNone_iff_eq_none.mpr (h o (List.mem_range.mp ho))

theorem runFree_of_succ {g : Grid} {b r L : Nat}
    (h : runFree g b r (L + 1) = true) : runFree g b r L = true := by
  rw [runFree_iff] at h ⊢
  exact fun o ho => h o (Nat.lt_succ_of_lt ho)

theorem occupy_cellAt_ne {g : Grid} {name : String} {b r L b' r' : Nat}
    (h : ¬(r' = r ∧ b ≤ b' ∧ b' < b + L)) :
    cellAt (occupy g name b r L) b' r' = cellAt g b' r' := by
  induction L with
  | zero => rfl
  | succ n ih =>
    unfold occupy
    have hne : b' ≠ b + n ∨ r' ≠ r := by
      by_cases hr : r' = r
      · left
        intro he
        exact h ⟨hr, by omega, by omega⟩
      · right; exact hr
    rw [setCell_cellAt_ne (by tauto)]
    exact ih (fun hc => h ⟨hc.1, hc.2.1, by omega⟩)

theorem occupy_cellAt_or (g : Grid) (name : String) (b r L b' r' : Nat) :
    cellAt (occupy g name b r L) b' r' = cellAt g b' r' ∨
    cellAt (occupy g name b r L) b' r' = some name := by
  induction L with
  | zero => exact Or.inl rfl
  | succ n ih =>
    unfold occupy
    rcases setCell_cellAt_or (occupy g name b r n) (b + n) r b' r' (some name) with h | h
    · rw [h]; exact ih
    · exact Or.inr h

theorem GridWF_occupy {g : Grid} {blocks rooms : Nat} {name : String} {b r L : Nat}
    (h : GridWF g blocks rooms) : GridWF (occupy g name b r L) blocks rooms := by
  induction L with
  | zero => exact h
  | succ n ih => exact GridWF_setCell ih

theorem occupy_preserve {g : Grid} {name s : String} {b r L b' r' : Nat}
    (hfree : runFree g b r L = true) (h : cellAt g b' r' = some s) :
    cellAt (occupy g name b r L) b' r' = some s := by
  by_cases hin : r' = r ∧ b ≤ b' ∧ b' < b + L
  · exfalso
    obtain ⟨h1, h2, h3⟩ := hin
    have hmid := (runFree_iff.mp hfree) (b' - b) (by omega)
    rw [show b + (b' - b) = b' by omega] at hmid
    rw [h1, hmid] at h
    exact absurd h (by simp)
  · rw [occupy_cellAt_ne hin]
    exact h

theorem occupy_cellAt_self {g : Grid} {blocks rooms : Nat} {name : String}
    {b r L b' : Nat} (hwf : GridWF g blocks rooms) (hbl : b + L ≤ blocks)
    (hr : r < rooms) (h1 : b ≤ b') (h2 : b' < b + L) :
    cellAt (occupy g name b r L) b' r = some name := by
  induction L with
  | zero => omega
  | succ n ih =>
    unfold occupy
    by_cases he : b' = b + n
    · have hwf2 := @GridWF_occupy g blocks rooms name b r n hwf
      have hblen : b + n < (occupy g name b r n).length := by
        obtain ⟨hl, _⟩ := hwf2
        omega
      have hrlen : r < (rowAt (occupy g name b r n) (b + n)).length := by
        rw [GridWF_rowAt_length hwf2 (by omega)]
        exact hr
      rw [he]
      exact setCell_cellAt_self hblen hrlen
    · rw [setCell_cellAt_ne (Or.inl he)]
      exact ih (by omega) (by omega)

theorem countOcc_occupy {g : Grid} {blocks rooms : Nat} {name : String}
    {b r L : Nat} (hwf : GridWF g blocks rooms) (hbl : b + L ≤ blocks)
    (hr : r < rooms) (hfree : runFree g b r L = true) :
    countOcc (occupy g name b r L) = countOcc g + L := by
  induction L with
  | zero => rfl
  | succ n ih =>
    unfold occupy
    have hwf2 := @GridWF_occupy g blocks rooms name b r n hwf
    have hblen : b + n < (occupy g name b r n).length := by
      obtain ⟨hl, _⟩ := hwf2
      omega
    have hrlen : r < (rowAt (occupy g name b r n) (b + n)).length := by
      rw [GridWF_rowAt_length hwf2 (by omega)]
      exact hr
    have hcellfree : cellAt (occupy g name b r n) (b + n) r = none := by
      rw [occupy_cellAt_ne (by omega)]
      exact (runFree_iff.mp hfree) n (by omega)
    rw [countOcc_setCell hblen hrlen hcellfree,
      ih (by omega) (runFree_of_succ hfree)]
    omega

theorem GridWF_emptyGrid (blocks rooms : Nat) :
    GridWF (emptyGrid blocks rooms) blocks rooms := by
  unfold emptyGrid GridWF
  constructor
  · exact List.length_replicate _ _
  · intro row hmem
    rw [List.eq_of_mem_replicate hmem]
    exact List.length_replicate _ _

theorem countOcc_emptyGrid (blocks rooms : Nat) :
    countOcc (emptyGrid blocks rooms) = 0 := by
  unfold countOcc emptyGrid
  rw [List.map_replicate]
  have hz : (List.replicate rooms (none : Option String)).countP
      (fun c => c.isSome) = 0 := by
    rw [List.countP_eq_zero]
    intro a ha
    rw [List.eq_of_mem_replicate ha]
    simp
  rw [hz]
  simp

/-! Lemmas about the randomness model and the sorts. -/

theorem getD_lt {α : Type} (l : List α) (d : α) {i : Nat} (h : i < l.length) :
    l.getD i d = l[i] := by
  rw [List.getD_eq_getElem?_getD, List.getElem?_eq_getElem h]
  rfl

theorem pickPerm_perm {α : Type} [DecidableEq α] (is : List Nat) (xs : List α) :
    (pickPerm is xs).Perm xs := by
  induction is generalizing xs with
  | nil =>
    cases xs with
    | nil => exact List.Perm.refl _
    | cons x xs => exact List.Perm.refl _
  | cons i is ih =>
    cases xs with
    | nil => exact List.Perm.refl _
    | cons x xs =>
      show ((x :: xs).getD (i % (x :: xs).length) x ::
        pickPerm is ((x :: xs).eraseIdx (i % (x :: xs).length))).Perm (x :: xs)
      have hj : i % (x :: xs).length < (x :: xs).length :=
        Nat.mod_lt _ (Nat.succ_pos xs.length)
      rw [getD_lt _ _ hj]
      refine List.Perm.trans (List.Perm.cons _ (ih _)) ?_
      refine List.Perm.trans (List.Perm.cons _ (List.erase_getElem hj).symm) ?_
      exact (List.perm_cons_erase (List.getElem_mem hj)).symm

theorem ordInsert_perm (le : Req → Req → Bool) (a : Req) (l : List Req) :
    (ordInsert le a l).Perm (a :: l) := by
  induction l with
  | nil => exact List.Perm.refl _
  | cons b l ih =>
    unfold ordInsert
    by_cases h : le a b
    · rw [if_pos h]
    · rw [if_neg h]
      exact List.Perm.trans (List.Perm.cons _ ih) (List.Perm.swap _ _ _)

theorem insSort_perm (le : Req → Req → Bool) (l : List Req) :
    (insSort le l).Perm l := by
  induction l with
  | nil => exact List.Perm.refl _
  | cons a l ih =>
    exact List.Perm.trans (ordInsert_perm le a (insSort le l)) (List.Perm.cons _ ih)

theorem sortStrategy_perm (strat : String) (l : List Req) :
    (sortStrategy strat l).Perm l := by
  unfold sortStrategy
  split
  · exact insSort_perm _ _
  · split
    · exact insSort_perm _ _
    · exact List.Perm.refl _

/-! Lemmas about candidate generation and the first-fit scan. -/

theorem starts_mem {blocks L b : Nat} :
    b ∈ starts blocks L ↔ b + L ≤ blocks := by
  unfold starts
  by_cases h : L ≤ blocks
  · rw [if_pos h, List.mem_range]
    omega
  · rw [if_neg h]
    simp only [List.not_mem_nil, false_iff]
    omega

theorem starts_nonempty_le {blocks L : Nat} {l : List Nat}
    (h : starts blocks L = l) (hne : l ≠ []) : L ≤ blocks := by
  by_contra hc
  unfold starts at h
  rw [if_neg hc] at h
  exact hne h.symm

theorem mkCands_mem {rooms : Nat} {σ : Draws} {ss : List Nat} {k : Nat}
    {p : Nat × Nat} :
    p ∈ (mkCands rooms σ ss k).1 ↔ p.1 ∈ ss ∧ p.2 < rooms := by
  induction ss generalizing k with
  | nil => simp [mkCands]
  | cons s rest ih =>
    unfold mkCands
    simp only [List.mem_append, List.mem_map]
    constructor
    · rintro (⟨r, hr, rfl⟩ | h)
      · have := (pickPerm_perm (σ k) (List.range rooms)).mem_iff.mp hr
        exact ⟨List.mem_cons_self _ _, List.mem_range.mp this⟩
      · obtain ⟨h1, h2⟩ := ih.mp h
        exact ⟨List.mem_cons_of_mem _ h1, h2⟩
    · rintro ⟨h1, h2⟩
      rcases List.mem_cons.mp h1 with rfl | h1
      · left
        refine ⟨p.2, ?_, rfl⟩
        exact (pickPerm_perm (σ k) (List.range rooms)).mem_iff.mpr
          (List.mem_range.mpr h2)
      · right
        exact ih.mpr ⟨h1, h2⟩

theorem flatMap_congr_mem {α β : Type} {l : List α} {f g : α → List β}
    (h : ∀ a ∈ l, f a = g a) : l.flatMap f = l.flatMap g := by
  induction l with
  | nil => rfl
  | cons a l ih =>
    rw [List.flatMap_cons, List.flatMap_cons, h a (List.mem_cons_self _ _),
      ih (fun x hx => h x (List.mem_cons_of_mem _ hx))]

theorem mkCands_flatMap {rooms : Nat} {σ : Draws} {ss : List Nat} {k : Nat}
    (hnd : ss.Nodup) :
    ∃ rp : Nat → List Nat, (∀ s ∈ ss, (rp s).Perm (List.range rooms)) ∧
      (mkCands rooms σ ss k).1 =
        ss.flatMap (fun s => (rp s).map (fun r => (s, r))) := by
  induction ss generalizing k with
  | nil => exact ⟨fun _ => [], by simp, by simp [mkCands]⟩
  | cons s rest ih =>
    obtain ⟨hs, hnd2⟩ := List.nodup_cons.mp hnd
    obtain ⟨rp, hrp, heq⟩ := ih hnd2 (k := k + 1)
    refine ⟨fun x => if x = s then pickPerm (σ k) (List.range rooms) else rp x,
      ?_, ?_⟩
    · intro x hx
      dsimp only
      rcases List.mem_cons.mp hx with rfl | hx2
      · rw [if_pos rfl]
        exact pickPerm_perm _ _
      · rw [if_neg (fun (he : x = s) => hs (he ▸ hx2))]
        exact hrp x hx2
    · unfold mkCands
      rw [List.flatMap_cons]
      have hcongr : rest.flatMap
            (fun x => ((if x = s then pickPerm (σ k) (List.range rooms)
              else rp x).map (fun r => (x, r)))) =
          rest.flatMap (fun x => (rp x).map (fun r => (x, r))) := by
        refine flatMap_congr_mem ?_
        intro x hx
        dsimp only
        rw [if_neg (fun (he : x = s) => hs (he ▸ hx))]
      rw [hcongr, ← heq]
      dsimp only
      rw [if_pos rfl]

theorem firstFit_some {g : Grid} {L : Nat} {cs : List (Nat × Nat)}
    {c : Nat × Nat} (h : firstFit g L cs = some c) :
    ∃ pre post, cs = pre ++ c :: post ∧ runFree g c.1 c.2 L = true ∧
      ∀ x ∈ pre, runFree g x.1 x.2 L = false := by
  induction cs with
  | nil => exact absurd h (by simp [firstFit])
  | cons d cs ih =>
    unfold firstFit at h
    by_cases hd : runFree g d.1 d.2 L
    · rw [if_pos hd] at h
      obtain rfl : d = c := Option.some.inj h
      exact ⟨[], cs, rfl, hd, by simp⟩
    · rw [if_neg hd] at h
      obtain ⟨pre, post, heq, hfree, hpre⟩ := ih h
      refine ⟨d :: pre, post, by rw [heq]; rfl, hfree, ?_⟩
      intro x hx
      rcases List.mem_cons.mp hx with rfl | hx
      · exact Bool.eq_false_iff.mpr hd
      · exact hpre x hx

theorem firstFit_none_iff {g : Grid} {L : Nat} {cs : List (Nat × Nat)} :
    firstFit g L cs = none ↔ ∀ c ∈ cs, runFree g c.1 c.2 L = false := by
  induction cs with
  | nil => simp [firstFit]
  | cons d cs ih =>
    unfold firstFit
    by_cases hd : runFree g d.1 d.2 L
    · rw [if_pos hd]
      simp only [reduceCtorEq, false_iff]
      intro hall
      rw [hall d (List.mem_cons_self _ _)] at hd
      exact absurd hd (by simp)
    · rw [if_neg hd, ih]
      constructor
      · intro hall c hc
        rcases List.mem_cons.mp hc with rfl | hc
        · exact Bool.eq_false_iff.mpr hd
        · exact hall c hc
      · intro hall c hc
        exact hall c (List.mem_cons_of_mem _ hc)

theorem firstFit_mem {g : Grid} {L : Nat} {cs : List (Nat × Nat)}
    {c : Nat × Nat} (h : firstFit g L cs = some c) : c ∈ cs := by
  obtain ⟨pre, post, heq, _, _⟩ := firstFit_some h
  rw [heq]
  exact List.mem_append_right _ (List.mem_cons_self _ _)

theorem placeReq_some {blocks rooms : Nat} {g : Grid} {L : Nat} {σ : Draws}
    {k : Nat} {br : Nat × Nat}
    (h : (placeReq blocks rooms g L σ k).1 = some br) :
    br.1 + L ≤ blocks ∧ br.2 < rooms ∧ runFree g br.1 br.2 L = true := by
  unfold placeReq at h
  have hmem := firstFit_mem h
  obtain ⟨h1, h2⟩ := mkCands_mem.mp hmem
  obtain ⟨pre, post, _, hfree, _⟩ := firstFit_some h
  exact ⟨starts_mem.mp h1, h2, hfree⟩

/-! Lemmas about the per-attempt placement loop. -/

theorem placeAll_ok {blocks rooms : Nat} {σ : Draws} {l : List Req}
    {g g2 : Grid} {k k2 : Nat}
    (h : placeAll blocks rooms σ l g k = (.ok g2, k2))
    (hwf : GridWF g blocks rooms) :
    GridWF g2 blocks rooms ∧
      countOcc g2 = countOcc g + (l.map (fun x => x.2)).sum := by
  induction l generalizing g k with
  | nil =>
    simp only [placeAll, Prod.mk.injEq] at h
    obtain ⟨h1, _⟩ := h
    obtain rfl : g = g2 := Except.ok.inj h1
    simp [hwf]
  | cons a rest ih =>
    obtain ⟨a1, a2⟩ := a
    cases hp : (placeReq blocks rooms g a2 σ k).1 with
    | none =>
      simp only [placeAll, hp] at h
      have h1 := congrArg Prod.fst h
      simp at h1
    | some br =>
      simp only [placeAll, hp] at h
      obtain ⟨hb, hr, hfree⟩ := placeReq_some hp
      have hwf2 : GridWF (occupy g a1 br.1 br.2 a2) blocks rooms :=
        GridWF_occupy hwf
      obtain ⟨hwf3, hcount⟩ := ih h hwf2
      refine ⟨hwf3, ?_⟩
      rw [hcount, countOcc_occupy hwf hb hr hfree]
      simp only [List.map_cons, List.sum_cons]
      omega

theorem placeAll_overlong {blocks rooms : Nat} {σ : Draws} {l : List Req}
    {n : String} {L : Nat} (hmem : (n, L) ∈ l) (hL : blocks < L) :
    ∀ g k, ∃ m, (placeAll blocks rooms σ l g k).1 = .error m := by
  induction l with
  | nil => exact absurd hmem (by simp)
  | cons a rest ih =>
    obtain ⟨a1, a2⟩ := a
    intro g k
    cases hp : (placeReq blocks rooms g a2 σ k).1 with
    | none =>
      refine ⟨a1, ?_⟩
      simp only [placeAll, hp]
    | some br =>
      rcases List.mem_cons.mp hmem with heq | hmem2
      · exfalso
        have hl2 : L = a2 := congrArg Prod.snd heq
        obtain ⟨h1, _, _⟩ := placeReq_some hp
        omega
      · simp only [placeAll, hp]
        exact ih hmem2 _ _

theorem attemptOnce_ok {blocks rooms k k2 : Nat} {strat : String} {σ : Draws}
    {wgroups : List Req} {g : Grid}
    (h : attemptOnce blocks rooms strat σ wgroups k = (.ok g, k2)) :
    GridWF g blocks rooms ∧
      countOcc g = (wgroups.map (fun x => x.2)).sum := by
  unfold attemptOnce at h
  obtain ⟨hwf, hcount⟩ := placeAll_ok h (GridWF_emptyGrid blocks rooms)
  refine ⟨hwf, ?_⟩
  rw [hcount, countOcc_emptyGrid]
  have hperm : (sortStrategy strat (pickPerm (σ k) wgroups)).Perm wgroups :=
    (sortStrategy_perm _ _).trans (pickPerm_perm _ _)
  rw [(hperm.map (fun x => x.2)).sum_eq]
  omega

theorem attemptOnce_overlong {blocks rooms : Nat} {strat : String} {σ : Draws}
    {wgroups : List Req} {n : String} {L : Nat}
    (hmem : (n, L) ∈ wgroups) (hL : blocks < L) :
    ∀ k, ∃ m, (attemptOnce blocks rooms strat σ wgroups k).1 = .error m := by
  intro k
  unfold attemptOnce
  have hperm : (sortStrategy strat (pickPerm (σ k) wgroups)).Perm wgroups :=
    (sortStrategy_perm _ _).trans (pickPerm_perm _ _)
  exact placeAll_overlong (hperm.mem_iff.mpr hmem) hL _ _

/-! Lemmas about the retry loop. -/

theorem greedyLoop_ne_cap {blocks rooms : Nat} {strat : String} {σ : Draws}
    {w : List Req} :
    ∀ fuel aN k t c,
      (greedyLoop blocks rooms strat σ w fuel aN k).1 ≠ .capacityExceeded t c := by
  intro fuel
  induction fuel with
  | zero => intro aN k t c; simp [greedyLoop]
  | succ n ih =>
    intro aN k t c
    rcases hres : attemptOnce blocks rooms strat σ w k with ⟨res, k2⟩
    cases res with
    | ok g =>
      simp [greedyLoop, hres]
    | error name =>
      simp only [greedyLoop, hres]
      by_cases hn : n = 0
      · rw [if_pos hn]
        simp
      · rw [if_neg hn]
        exact ih (aN + 1) k2 t c

theorem greedyLoop_allFail {blocks rooms : Nat} {strat : String} {σ : Draws}
    {w : List Req}
    (H : ∀ kp, ∃ m, (attemptOnce blocks rooms strat σ w kp).1 = .error m) :
    ∀ fuel aN k, 1 ≤ fuel → ∃ name k2 k3,
      greedyLoop blocks rooms strat σ w fuel aN k =
        (.placementFailed name (aN + fuel - 1), k3) ∧
      attemptOnce blocks rooms strat σ w k2 = (.error name, k3) := by
  intro fuel
  induction fuel with
  | zero => intro aN k hf; omega
  | succ n ih =>
    intro aN k _
    obtain ⟨m, hm⟩ := H k
    rcases hres : attemptOnce blocks rooms strat σ w k with ⟨res, kk⟩
    rw [hres] at hm
    simp only at hm
    subst hm
    by_cases hn : n = 0
    · subst hn
      refine ⟨m, k, kk, ?_, hres⟩
      simp only [greedyLoop, hres, if_pos rfl]
      rfl
    · obtain ⟨name, k2, k3, heq, hat⟩ := ih (aN + 1) kk (by omega)
      refine ⟨name, k2, k3, ?_, hat⟩
      simp only [greedyLoop, hres, if_neg hn]
      rw [heq]
      congr 2
      omega

theorem greedyLoop_success_first {blocks rooms : Nat} {strat : String}
    {σ : Draws} {w : List Req} {g : Grid} {fuel aN k k2 : Nat}
    (h : attemptOnce blocks rooms strat σ w k = (.ok g, k2)) :
    greedyLoop blocks rooms strat σ w (fuel + 1) aN k =
      (.success g (emptyRowsOf g) aN, k2) := by
  simp only [greedyLoop, h]

theorem greedyLoop_success_inv {blocks rooms : Nat} {strat : String}
    {σ : Draws} {w : List Req} {g : Grid} {er : List Nat} {att : Nat} :
    ∀ fuel aN k,
      (greedyLoop blocks rooms strat σ w fuel aN k).1 = .success g er att →
      ∃ kp, (attemptOnce blocks rooms strat σ w kp).1 = .ok g ∧
        er = emptyRowsOf g := by
  intro fuel
  induction fuel with
  | zero => intro aN k h; exact absurd h (by simp [greedyLoop])
  | succ n ih =>
    intro aN k h
    rcases hres : attemptOnce blocks rooms strat σ w k with ⟨res, k2⟩
    cases res with
    | ok g1 =>
      simp only [greedyLoop, hres] at h
      obtain ⟨rfl, rfl, _⟩ := GreedyResult.success.inj h
      exact ⟨k, by rw [hres], rfl⟩
    | error name =>
      simp only [greedyLoop, hres] at h
      by_cases hn : n = 0
      · rw [if_pos hn] at h
        exact absurd h (by simp)
      · rw [if_neg hn] at h
        exact ih (aN + 1) k2 h

/-! Lemmas about the fill pass. -/

theorem fillLoop_preserve {blocks rooms : Nat} {σ : Draws} :
    ∀ (l : List Req) (g : Grid) (k b r : Nat) (s : String),
      cellAt g b r = some s →
      cellAt ((fillLoop blocks rooms σ l g k).1.1) b r = some s := by
  intro l
  induction l with
  | nil => intro g k b r s h; exact h
  | cons a rest ih =>
    obtain ⟨a1, a2⟩ := a
    intro g k b r s h
    cases hp : (placeReq blocks rooms g a2 σ k).1 with
    | some br =>
      simp only [fillLoop, hp]
      obtain ⟨_, _, hfree⟩ := placeReq_some hp
      exact ih _ _ _ _ _ (occupy_preserve hfree h)
    | none =>
      simp only [fillLoop, hp]
      exact ih _ _ _ _ _ h

theorem fillLoop_conserve {blocks rooms : Nat} {σ : Draws} :
    ∀ (l : List Req) (g : Grid) (k : Nat), GridWF g blocks rooms →
      ∃ placed missed : List Req,
        (placed ++ missed).Perm l ∧
        missed.map (fun x => x.1) = (fillLoop blocks rooms σ l g k).1.2 ∧
        countOcc (fillLoop blocks rooms σ l g k).1.1 =
          countOcc g + (placed.map (fun x => x.2)).sum ∧
        GridWF (fillLoop blocks rooms σ l g k).1.1 blocks rooms := by
  intro l
  induction l with
  | nil =>
    intro g k hwf
    exact ⟨[], [], List.Perm.refl _, rfl, by simp [fillLoop], hwf⟩
  | cons a rest ih =>
    obtain ⟨a1, a2⟩ := a
    intro g k hwf
    cases hp : (placeReq blocks rooms g a2 σ k).1 with
    | some br =>
      obtain ⟨hb, hr, hfree⟩ := placeReq_some hp
      obtain ⟨placed, missed, hperm, hmap, hcount, hwf2⟩ :=
        ih (occupy g a1 br.1 br.2 a2) (placeReq blocks rooms g a2 σ k).2
          (GridWF_occupy hwf)
      refine ⟨(a1, a2) :: placed, missed, ?_, ?_, ?_, ?_⟩
      · exact hperm.cons (a1, a2)
      · simp only [fillLoop, hp]
        exact hmap
      · simp only [fillLoop, hp]
        rw [hcount, countOcc_occupy hwf hb hr hfree]
        simp only [List.map_cons, List.sum_cons]
        omega
      · simp only [fillLoop, hp]
        exact hwf2
    | none =>
      obtain ⟨placed, missed, hperm, hmap, hcount, hwf2⟩ :=
        ih g (placeReq blocks rooms g a2 σ k).2 hwf
      refine ⟨placed, (a1, a2) :: missed, ?_, ?_, ?_, ?_⟩
      · exact List.perm_middle.trans (hperm.cons (a1, a2))
      · simp only [fillLoop, hp, List.map_cons]
        rw [hmap]
      · simp only [fillLoop, hp]
        exact hcount
      · simp only [fillLoop, hp]
        exact hwf2

theorem fillLoop_overlong {blocks rooms : Nat} {σ : Draws} {n : String}
    {L : Nat} (hL : blocks < L) :
    ∀ (l : List Req), (n, L) ∈ l → ∀ (g : Grid) (k : Nat),
      n ∈ (fillLoop blocks rooms σ l g k).1.2 := by
  intro l
  induction l with
  | nil => intro hmem; exact absurd hmem (by simp)
  | cons a rest ih =>
    obtain ⟨a1, a2⟩ := a
    intro hmem g k
    cases hp : (placeReq blocks rooms g a2 σ k).1 with
    | some br =>
      rcases List.mem_cons.mp hmem with heq | hmem2
      · exfalso
        have hl2 : L = a2 := congrArg Prod.snd heq
        obtain ⟨h1, _, _⟩ := placeReq_some hp
        omega
      · simp only [fillLoop, hp]
        exact ih hmem2 _ _
    | none =>
      simp only [fillLoop, hp]
      rcases List.mem_cons.mp hmem with heq | hmem2
      · have hn : n = a1 := congrArg Prod.fst heq
        rw [hn]
        exact List.mem_cons_self _ _
      · exact List.mem_cons_of_mem _ (ih hmem2 _ _)

theorem fillLoop_cells {blocks rooms : Nat} {σ : Draws} :
    ∀ (l : List Req) (g : Grid) (k b r : Nat),
      cellAt (fillLoop blocks rooms σ l g k).1.1 b r = cellAt g b r ∨
      ∃ m l2, (m, l2) ∈ l ∧ l2 ≤ blocks ∧
        cellAt (fillLoop blocks rooms σ l g k).1.1 b r = some m := by
  intro l
  induction l with
  | nil => intro g k b r; exact Or.inl rfl
  | cons a rest ih =>
    obtain ⟨a1, a2⟩ := a
    intro g k b r
    cases hp : (placeReq blocks rooms g a2 σ k).1 with
    | some br =>
      obtain ⟨hb, _, _⟩ := placeReq_some hp
      rcases ih (occupy g a1 br.1 br.2 a2) (placeReq blocks rooms g a2 σ k).2 b r
        with hsame | ⟨m, l2, hmem, hl2, hcell⟩
      · rcases occupy_cellAt_or g a1 br.1 br.2 a2 b r with ho | ho
        · left
          simp only [fillLoop, hp]
          rw [hsame, ho]
        · right
          refine ⟨a1, a2, List.mem_cons_self _ _, by omega, ?_⟩
          simp only [fillLoop, hp]
          rw [hsame, ho]
      · right
        refine ⟨m, l2, List.mem_cons_of_mem _ hmem, hl2, ?_⟩
        simp only [fillLoop, hp]
        exact hcell
    | none =>
      rcases ih g (placeReq blocks rooms g a2 σ k).2 b r
        with hsame | ⟨m, l2, hmem, hl2, hcell⟩
      · left
        simp only [fillLoop, hp]
        exact hsame
      · right
        refine ⟨m, l2, List.mem_cons_of_mem _ hmem, hl2, ?_⟩
        simp only [fillLoop, hp]
        exact hcell

theorem fillLoop_full {blocks rooms : Nat} {σ : Draws} {g : Grid}
    (hfull : ∀ b r, b < blocks → r < rooms → cellAt g b r ≠ none) :
    ∀ (l : List Req), (∀ x ∈ l, 1 ≤ x.2) → ∀ (k : Nat),
      (fillLoop blocks rooms σ l g k).1.1 = g ∧
      (fillLoop blocks rooms σ l g k).1.2 = l.map (fun x => x.1) := by
  intro l
  induction l with
  | nil => intro _ k; exact ⟨rfl, rfl⟩
  | cons a rest ih =>
    obtain ⟨a1, a2⟩ := a
    intro hpos k
    have ha2 : 1 ≤ a2 := hpos (a1, a2) (List.mem_cons_self _ _)
    have hp : (placeReq blocks rooms g a2 σ k).1 = none := by
      unfold placeReq
      simp only []
      rw [firstFit_none_iff]
      intro c hc
      obtain ⟨h1, h2⟩ := mkCands_mem.mp hc
      have hc1 : c.1 + a2 ≤ blocks := starts_mem.mp h1
      refine Bool.eq_false_iff.mpr ?_
      intro hfree
      have h0 := (runFree_iff.mp hfree) 0 (by omega)
      exact hfull c.1 c.2 (by omega) h2 (by simpa using h0)
    obtain ⟨hg, hlft⟩ := ih (fun x hx => hpos x (List.mem_cons_of_mem _ hx))
      (placeReq blocks rooms g a2 σ k).2
    constructor
    · simp only [fillLoop, hp]
      exact hg
    · simp only [fillLoop, hp, List.map_cons]
      rw [hlft]

/-! The claims. -/

/-- C1: no double-booking.  Every grid cell holds at most one session name
(cells are single-valued), a placement decision is only taken on a run of
cells that are all empty immediately before the placement, and the fill
pass never changes a cell that was already occupied — for all request
lists, grids, sort strategies and random sequences. -/
theorem C1_no_double_booking (blocks rooms : Nat) :
    (∀ (g : Grid) (b r : Nat) (s1 s2 : String),
      cellAt g b r = some s1 → cellAt g b r = some s2 → s1 = s2) ∧
    (∀ (g : Grid) (L : Nat) (σ : Draws) (k : Nat) (br : Nat × Nat),
      (placeReq blocks rooms g L σ k).1 = some br →
      runFree g br.1 br.2 L = true) ∧
    (∀ (grid : Grid) (bofs : List Req) (strat : String) (σ : Draws)
      (k b r : Nat) (s : String), cellAt grid b r = some s →
      cellAt (fill_bofs blocks rooms grid bofs strat σ k).1.1 b r = some s) := by
  refine ⟨?_, ?_, ?_⟩
  · intro g b r s1 s2 h1 h2
    rw [h1] at h2
    exact Option.some.inj h2
  · intro g L σ k br h
    exact (placeReq_some h).2.2
  · intro grid bofs strat σ k b r s h
    unfold fill_bofs
    exact fillLoop_preserve _ _ _ _ _ _ h

/-- C1 witness: concrete instances of the three conjuncts. -/
theorem C1_witness :
    ("A" : String) = "A" ∧
    runFree (emptyGrid 2 2) 0 0 1 = true ∧
    cellAt (fill_bofs 2 2 [[some "A", none], [none, none]] [("B", 1)]
      "as_is" sigmaId 0).1.1 0 0 = some "A" := by
  refine ⟨?_, ?_, ?_⟩
  · exact (C1_no_double_booking 2 2).1 [[some "A"]] 0 0 "A" "A" rfl rfl
  · exact (C1_no_double_booking 2 2).2.1 (emptyGrid 2 2) 1 sigmaId 0 (0, 0)
      (by decide)
  · exact (C1_no_double_booking 2 2).2.2 [[some "A", none], [none, none]]
      [("B", 1)] "as_is" sigmaId 0 0 0 "A" (by decide)

/-- C2: contiguity-in-room.  Whenever the first-fit scan selects a spot
`(b, r)` for a request of length `L`, then `b + L ≤ blocks`, `r < rooms`,
and occupying that spot writes the request's name into exactly the `L`
cells `(b, r), (b+1, r), …, (b+L-1, r)` — a contiguous block run in a
single room — leaving every other cell unchanged. -/
theorem C2_contiguity (blocks rooms : Nat) (g : Grid) (L : Nat) (σ : Draws)
    (k : Nat) (br : Nat × Nat) (name : String)
    (hwf : GridWF g blocks rooms)
    (h : (placeReq blocks rooms g L σ k).1 = some br) :
    br.1 + L ≤ blocks ∧ br.2 < rooms ∧
    ∀ b' r', cellAt (occupy g name br.1 br.2 L) b' r' =
      if r' = br.2 ∧ br.1 ≤ b' ∧ b' < br.1 + L then some name
      else cellAt g b' r' := by
  obtain ⟨hb, hr, hfree⟩ := placeReq_some h
  refine ⟨hb, hr, ?_⟩
  intro b' r'
  by_cases hin : r' = br.2 ∧ br.1 ≤ b' ∧ b' < br.1 + L
  · rw [if_pos hin, hin.1]
    exact occupy_cellAt_self hwf hb hr hin.2.1 hin.2.2
  · rw [if_neg hin]
    exact occupy_cellAt_ne hin

/-- C2 witness: a length-1 request placed at `(0, 0)` of an empty 2 × 2
grid occupies exactly that cell. -/
theorem C2_witness :
    (0 : Nat) + 1 ≤ 2 ∧ (0 : Nat) < 2 ∧
    ∀ b' r', cellAt (occupy (emptyGrid 2 2) "A" 0 0 1) b' r' =
      if r' = 0 ∧ 0 ≤ b' ∧ b' < 0 + 1 then some "A"
      else cellAt (emptyGrid 2 2) b' r' :=
  C2_contiguity 2 2 (emptyGrid 2 2) 1 sigmaId 0 (0, 0) "A"
    (GridWF_emptyGrid 2 2) (by decide)

/-- C3: capacity gate.  If the summed request lengths exceed
`blocks * rooms`, the run exits with `CapacityExceeded` carrying the total
and the capacity, with the random stream untouched and independent of the
randomness (no attempt is made, no cell written); otherwise the result is
never `CapacityExceeded`. -/
theorem C3_capacity_gate (blocks rooms maxTries : Nat) (wgroups : List Req)
    (strat : String) :
    (blocks * rooms < (wgroups.map (fun x => x.2)).sum →
      ∀ (σ : Draws) (k : Nat),
        greedy_place_wgroups blocks rooms wgroups maxTries strat σ k =
          (.capacityExceeded ((wgroups.map (fun x => x.2)).sum)
            (blocks * rooms), k)) ∧
    ((wgroups.map (fun x => x.2)).sum ≤ blocks * rooms →
      ∀ (σ : Draws) (k t c : Nat),
        (greedy_place_wgroups blocks rooms wgroups maxTries strat σ k).1 ≠
          .capacityExceeded t c) := by
  constructor
  · intro h σ k
    unfold greedy_place_wgroups
    rw [if_pos h]
  · intro h σ k t c
    unfold greedy_place_wgroups
    rw [if_neg (Nat.not_lt.mpr h)]
    exact greedyLoop_ne_cap maxTries 1 k t c

/-- C3 witness: a 5-block request on a 2 × 2 grid trips the gate; a
1-block request does not. -/
theorem C3_witness :
    greedy_place_wgroups 2 2 [("A", 5)] 1 "as_is" sigmaId 0 =
      (.capacityExceeded 5 4, 0) ∧
    (greedy_place_wgroups 2 2 [("A", 1)] 1 "as_is" sigmaId 0).1 ≠
      .capacityExceeded 1 4 := by
  constructor
  · exact (C3_capacity_gate 2 2 1 [("A", 5)] "as_is").1 (by decide) sigmaId 0
  · exact (C3_capacity_gate 2 2 1 [("A", 1)] "as_is").2 (by decide) sigmaId 0 1 4

/-- C8: determinism under a fixed seed.  Two pipeline runs (primary
placement followed by the fill pass) with identical request lists,
`maxTries`, sort strategy, grid dimensions, random stream and stream
position produce identical grids, leftover lists and attempt counts. -/
theorem C8_determinism (blocks rooms maxTries : Nat) (w1 w2 b1 b2 : List Req)
    (s1 s2 : String) (σ1 σ2 : Draws) (k1 k2 : Nat)
    (hw : w1 = w2) (hb : b1 = b2) (hs : s1 = s2) (hσ : σ1 = σ2)
    (hk : k1 = k2) :
    pipelineRun blocks rooms w1 b1 maxTries s1 σ1 k1 =
      pipelineRun blocks rooms w2 b2 maxTries s2 σ2 k2 := by
  rw [hw, hb, hs, hσ, hk]

/-- C8 witness: a concrete pipeline run equals itself under syntactically
equal inputs. -/
theorem C8_witness :
    pipelineRun 2 2 [("A", 1)] [("B", 1)] 2 "as_is" sigmaId 0 =
      pipelineRun 2 2 [("A", 1)] [("B", 1)] 2 "as_is" sigmaId 0 :=
  C8_determinism 2 2 2 [("A", 1)] [("A", 1)] [("B", 1)] [("B", 1)]
    "as_is" "as_is" sigmaId sigmaId 0 0 rfl rfl rfl rfl rfl

/-- C9: fill frame property.  The fill pass works on a copy (modelled by
value-passing) and every cell occupied in the input grid holds the same
session name in the output grid: fill placements only touch cells that
were empty in the input, for every grid, fill list, sort strategy and
random sequence. -/
theorem C9_fill_frame (blocks rooms : Nat) (grid : Grid) (bofs : List Req)
    (strat : String) (σ : Draws) (k : Nat) :
    ∀ b r s, cellAt grid b r = some s →
      cellAt (fill_bofs blocks rooms grid bofs strat σ k).1.1 b r = some s := by
  intro b r s h
  unfold fill_bofs
  exact fillLoop_preserve _ _ _ _ _ _ h

/-- C9 witness: filling around an occupied 1 × 1 grid keeps its cell. -/
theorem C9_witness :
    cellAt (fill_bofs 1 1 [[some "Q"]] [("R", 1)] "largest_first"
      sigmaId 0).1.1 0 0 = some "Q" :=
  C9_fill_frame 1 1 [[some "Q"]] [("R", 1)] "largest_first" sigmaId 0
    0 0 "Q" (by decide)

/-- C4: conservation.  A successful primary run occupies exactly the sum
of the primary request lengths; a fill run adds exactly the lengths of the
placed fill requests (those requests, together with the ones named in
`leftover`, partition the submitted fill list up to permutation). -/
theorem C4_conservation (blocks rooms maxTries : Nat) (wgroups bofs : List Req)
    (strat : String) (σ σ2 : Draws) (k k2 : Nat) (grid : Grid) :
    (∀ (g : Grid) (er : List Nat) (att kk : Nat),
      greedy_place_wgroups blocks rooms wgroups maxTries strat σ k =
        (.success g er att, kk) →
      countOcc g = (wgroups.map (fun x => x.2)).sum) ∧
    (GridWF grid blocks rooms →
      ∃ placed missed : List Req,
        (placed ++ missed).Perm bofs ∧
        missed.map (fun x => x.1) =
          (fill_bofs blocks rooms grid bofs strat σ2 k2).1.2 ∧
        countOcc (fill_bofs blocks rooms grid bofs strat σ2 k2).1.1 =
          countOcc grid + (placed.map (fun x => x.2)).sum) := by
  constructor
  · intro g er att kk h
    unfold greedy_place_wgroups at h
    by_cases hcap : blocks * rooms < (wgroups.map (fun x => x.2)).sum
    · rw [if_pos hcap] at h
      have h1 := congrArg Prod.fst h
      simp at h1
    · rw [if_neg hcap] at h
      have h1 := congrArg Prod.fst h
      obtain ⟨kp, hok, _⟩ := greedyLoop_success_inv maxTries 1 k h1
      rcases hres : attemptOnce blocks rooms strat σ wgroups kp with ⟨res, kq⟩
      rw [hres] at hok
      simp only at hok
      subst hok
      exact (attemptOnce_ok hres).2
  · intro hwf
    unfold fill_bofs
    obtain ⟨placed, missed, hperm, hmap, hcount, _⟩ :=
      fillLoop_conserve (sortStrategy strat (pickPerm (σ2 k2) bofs)) grid
        (k2 + 1) hwf
    refine ⟨placed, missed, ?_, hmap, hcount⟩
    exact hperm.trans ((sortStrategy_perm _ _).trans (pickPerm_perm _ _))

/-- C4 witness: a successful run with one length-1 request occupies one
cell; a fill run on an empty 2 × 2 grid conserves occupancy. -/
theorem C4_witness :
    countOcc [[some "A", none], [none, none]] = 1 ∧
    (∃ placed missed : List Req,
      (placed ++ missed).Perm [("B", 1)] ∧
      missed.map (fun x => x.1) =
        (fill_bofs 2 2 (emptyGrid 2 2) [("B", 1)] "as_is" sigmaId 0).1.2 ∧
      countOcc (fill_bofs 2 2 (emptyGrid 2 2) [("B", 1)] "as_is"
        sigmaId 0).1.1 =
        countOcc (emptyGrid 2 2) + (placed.map (fun x => x.2)).sum) := by
  constructor
  · exact (C4_conservation 2 2 3 [("A", 1)] [] "largest_first" sigmaId
      sigmaId 0 0 (emptyGrid 2 2)).1
      [[some "A", none], [none, none]] [1] 1 3 (by decide)
  · exact (C4_conservation 2 2 3 [("A", 1)] [("B", 1)] "as_is" sigmaId
      sigmaId 0 0 (emptyGrid 2 2)).2 (GridWF_emptyGrid 2 2)

/-- C5 (counterexample): the claim asserts leftover = ["X", "Y"] in
submission order for every random sequence, but `fill_bofs` shuffles the
fill list before processing; under `sigmaSwap` the processing order is
["Y", "X"], so the leftover list is ["Y", "X"], not ["X", "Y"]. -/
theorem C5_counterexample :
    (fill_bofs 5 8 fullGrid58 [("X", 1), ("Y", 1)] "largest_first"
      sigmaSwap 0).1.2 = ["Y", "X"] ∧
    ¬((fill_bofs 5 8 fullGrid58 [("X", 1), ("Y", 1)] "largest_first"
      sigmaSwap 0).1.2 = ["X", "Y"]) ∧
    (fill_bofs 5 8 fullGrid58 [("X", 1), ("Y", 1)] "largest_first"
      sigmaSwap 0).1.1 = fullGrid58 := by
  refine ⟨by decide, by decide, by decide⟩

/-- C5 (amended): on a fully occupied grid every fill request of length
at least 1 is unplaceable, so the output grid equals the input grid and
the leftover list is the names of the fill requests in their
shuffled-then-sorted processing order — a permutation of the submitted
names, not necessarily the submission order. -/
theorem C5_full_grid_fill (blocks rooms : Nat) (grid : Grid) (bofs : List Req)
    (strat : String) (σ : Draws) (k : Nat)
    (hfull : ∀ b, b < blocks → ∀ r, r < rooms → cellAt grid b r ≠ none)
    (hpos : ∀ x ∈ bofs, 1 ≤ x.2) :
    (fill_bofs blocks rooms grid bofs strat σ k).1.1 = grid ∧
    (fill_bofs blocks rooms grid bofs strat σ k).1.2 =
      (sortStrategy strat (pickPerm (σ k) bofs)).map (fun x => x.1) ∧
    ((fill_bofs blocks rooms grid bofs strat σ k).1.2).Perm
      (bofs.map (fun x => x.1)) := by
  have hperm : (sortStrategy strat (pickPerm (σ k) bofs)).Perm bofs :=
    (sortStrategy_perm _ _).trans (pickPerm_perm _ _)
  have hpos2 : ∀ x ∈ sortStrategy strat (pickPerm (σ k) bofs), 1 ≤ x.2 :=
    fun x hx => hpos x (hperm.mem_iff.mp hx)
  unfold fill_bofs
  obtain ⟨h1, h2⟩ := fillLoop_full (fun b r hb hr => hfull b hb r hr) _
    hpos2 (k + 1)
  refine ⟨h1, h2, ?_⟩
  rw [h2]
  exact hperm.map _

/-- C5 witness: the amended statement at the claim's concrete input. -/
theorem C5_witness :
    (fill_bofs 5 8 fullGrid58 [("X", 1), ("Y", 1)] "largest_first"
      sigmaSwap 0).1.1 = fullGrid58 ∧
    ((fill_bofs 5 8 fullGrid58 [("X", 1), ("Y", 1)] "largest_first"
      sigmaSwap 0).1.2).Perm ["X", "Y"] := by
  have h := C5_full_grid_fill 5 8 fullGrid58 [("X", 1), ("Y", 1)]
    "largest_first" sigmaSwap 0 (by decide) (by decide)
  exact ⟨h.1, h.2.2⟩

theorem greedyLoop_failed_inv {blocks rooms : Nat} {strat : String}
    {σ : Draws} {w : List Req} {name : String} {t : Nat} :
    ∀ fuel aN k,
      (greedyLoop blocks rooms strat σ w fuel aN k).1 =
        .placementFailed name t →
      t = aN + fuel - 1 ∧
        ∃ kp, (attemptOnce blocks rooms strat σ w kp).1 = .error name := by
  intro fuel
  induction fuel with
  | zero => intro aN k h; exact absurd h (by simp [greedyLoop])
  | succ n ih =>
    intro aN k h
    rcases hres : attemptOnce blocks rooms strat σ w k with ⟨res, k2⟩
    cases res with
    | ok g =>
      simp only [greedyLoop, hres] at h
      exact absurd h (by simp)
    | error nm =>
      simp only [greedyLoop, hres] at h
      by_cases hn : n = 0
      · rw [if_pos hn] at h
        obtain ⟨rfl, rfl⟩ := GreedyResult.placementFailed.inj h
        subst hn
        exact ⟨by omega, k, by rw [hres]⟩
      · rw [if_neg hn] at h
        obtain ⟨ht, hex⟩ := ih (aN + 1) k2 h
        exact ⟨by omega, hex⟩

/-- C6: placement exhaustion.  Within capacity and with at least one try:
if every attempt fails, the run ends with `PlacementFailed` carrying the
failing name of the final attempt and the `maxTries` count; if the first
attempt succeeds, the run returns that grid immediately as attempt 1
without consuming further attempts; and any successful result is a total
placement (its occupancy equals the requested total — never a partial
grid). -/
theorem C6_exhaustion (blocks rooms maxTries : Nat) (wgroups : List Req)
    (strat : String) (σ : Draws) (k : Nat)
    (hm : 1 ≤ maxTries)
    (hcap : (wgroups.map (fun x => x.2)).sum ≤ blocks * rooms) :
    ((∀ kp, ∃ m, (attemptOnce blocks rooms strat σ wgroups kp).1 = .error m) →
      ∃ name k2 k3,
        greedy_place_wgroups blocks rooms wgroups maxTries strat σ k =
          (.placementFailed name maxTries, k3) ∧
        attemptOnce blocks rooms strat σ wgroups k2 = (.error name, k3)) ∧
    (∀ (g : Grid) (k2 : Nat),
      attemptOnce blocks rooms strat σ wgroups k = (.ok g, k2) →
      greedy_place_wgroups blocks rooms wgroups maxTries strat σ k =
        (.success g (emptyRowsOf g) 1, k2)) ∧
    (∀ (g : Grid) (er : List Nat) (att kk : Nat),
      greedy_place_wgroups blocks rooms wgroups maxTries strat σ k =
        (.success g er att, kk) →
      countOcc g = (wgroups.map (fun x => x.2)).sum) ∧
    (∀ (fuel aN kp : Nat) (g : Grid) (k2 : Nat),
      attemptOnce blocks rooms strat σ wgroups kp = (.ok g, k2) →
      greedyLoop blocks rooms strat σ wgroups (fuel + 1) aN kp =
        (.success g (emptyRowsOf g) aN, k2)) ∧
    (∀ (nm : String) (t kk : Nat),
      greedy_place_wgroups blocks rooms wgroups maxTries strat σ k =
        (.placementFailed nm t, kk) →
      t = maxTries ∧
        ∃ kp, (attemptOnce blocks rooms strat σ wgroups kp).1 = .error nm) := by
  have hnotlt : ¬(blocks * rooms < (wgroups.map (fun x => x.2)).sum) :=
    Nat.not_lt.mpr hcap
  refine ⟨?_, ?_, ?_, ?_, ?_⟩
  · intro H
    obtain ⟨name, k2, k3, heq, hat⟩ := greedyLoop_allFail H maxTries 1 k hm
    have harith : 1 + maxTries - 1 = maxTries := by omega
    rw [harith] at heq
    refine ⟨name, k2, k3, ?_, hat⟩
    unfold greedy_place_wgroups
    rw [if_neg hnotlt]
    exact heq
  · intro g k2 h
    unfold greedy_place_wgroups
    rw [if_neg hnotlt]
    obtain ⟨n, rfl⟩ : ∃ n, maxTries = n + 1 := ⟨maxTries - 1, by omega⟩
    exact greedyLoop_success_first h
  · intro g er att kk h
    unfold greedy_place_wgroups at h
    rw [if_neg hnotlt] at h
    have h1 := congrArg Prod.fst h
    obtain ⟨kp, hok, _⟩ := greedyLoop_success_inv maxTries 1 k h1
    rcases hres : attemptOnce blocks rooms strat σ wgroups kp with ⟨res, kq⟩
    rw [hres] at hok
    simp only at hok
    subst hok
    exact (attemptOnce_ok hres).2
  · intro fuel aN kp g k2 h
    exact greedyLoop_success_first h
  · intro nm t kk h
    unfold greedy_place_wgroups at h
    rw [if_neg hnotlt] at h
    have h1 := congrArg Prod.fst h
    obtain ⟨ht, hex⟩ := greedyLoop_failed_inv maxTries 1 k h1
    exact ⟨by omega, hex⟩

/-- C6 witness: an over-long request (length 3 on 2 blocks, within
capacity) always exhausts its tries; a placeable request succeeds on the
first attempt with a total grid. -/
theorem C6_witness :
    (∃ name k2 k3,
      greedy_place_wgroups 2 2 [("A", 3)] 2 "largest_first" sigmaId 0 =
        (.placementFailed name 2, k3) ∧
      attemptOnce 2 2 "largest_first" sigmaId [("A", 3)] k2 =
        (.error name, k3)) ∧
    greedy_place_wgroups 2 2 [("A", 1)] 3 "largest_first" sigmaId 0 =
      (.success [[some "A", none], [none, none]]
        (emptyRowsOf [[some "A", none], [none, none]]) 1, 3) ∧
    countOcc [[some "A", none], [none, none]] = 1 ∧
    greedyLoop 2 2 "largest_first" sigmaId [("A", 1)] 2 7 5 =
      (.success [[some "A", none], [none, none]]
        (emptyRowsOf [[some "A", none], [none, none]]) 7, 8) ∧
    (2 = 2 ∧ ∃ kp,
      (attemptOnce 2 2 "largest_first" sigmaId [("A", 3)] kp).1 =
        .error "A") := by
  refine ⟨?_, ?_, ?_, ?_, ?_⟩
  · exact (C6_exhaustion 2 2 2 [("A", 3)] "largest_first" sigmaId 0
      (by decide) (by decide)).1
      (fun kp => @attemptOnce_overlong 2 2 "largest_first" sigmaId
        [("A", 3)] "A" 3 (by decide) (by decide) kp)
  · exact (C6_exhaustion 2 2 3 [("A", 1)] "largest_first" sigmaId 0
      (by decide) (by decide)).2.1 [[some "A", none], [none, none]] 3
      (by rfl)
  · exact (C6_exhaustion 2 2 3 [("A", 1)] "largest_first" sigmaId 0
      (by decide) (by decide)).2.2.1 [[some "A", none], [none, none]] [1] 1 3
      (by decide)
  · exact (C6_exhaustion 2 2 3 [("A", 1)] "largest_first" sigmaId 0
      (by decide) (by decide)).2.2.2.1 1 7 5
      [[some "A", none], [none, none]] 8 (by rfl)
  · exact (C6_exhaustion 2 2 2 [("A", 3)] "largest_first" sigmaId 0
      (by decide) (by decide)).2.2.2.2 "A" 2 2 (by rfl)

/-- C7: first-fit candidate order.  The candidate pairs for a request of
length `L` are exactly those `(startBlock, room)` with
`startBlock + L ≤ blocks` and `room < rooms`; they are listed by
increasing start block with an independent permutation of all rooms
within each start block; the chosen spot is the first candidate in that
order whose whole run is free, and no spot is chosen exactly when no
candidate's run is free. -/
theorem C7_first_fit_order (blocks rooms : Nat) (g : Grid) (L : Nat)
    (σ : Draws) (k : Nat) :
    (∀ p : Nat × Nat, p ∈ (mkCands rooms σ (starts blocks L) k).1 ↔
      p.1 + L ≤ blocks ∧ p.2 < rooms) ∧
    (∃ rp : Nat → List Nat,
      (∀ s ∈ starts blocks L, (rp s).Perm (List.range rooms)) ∧
      (mkCands rooms σ (starts blocks L) k).1 =
        (starts blocks L).flatMap (fun s => (rp s).map (fun r => (s, r)))) ∧
    (starts blocks L).Pairwise (· < ·) ∧
    (∀ br, (placeReq blocks rooms g L σ k).1 = some br →
      ∃ pre post,
        (mkCands rooms σ (starts blocks L) k).1 = pre ++ br :: post ∧
        runFree g br.1 br.2 L = true ∧
        ∀ x ∈ pre, runFree g x.1 x.2 L = false) ∧
    ((placeReq blocks rooms g L σ k).1 = none ↔
      ∀ c ∈ (mkCands rooms σ (starts blocks L) k).1,
        runFree g c.1 c.2 L = false) := by
  refine ⟨?_, ?_, ?_, ?_, ?_⟩
  · intro p
    rw [mkCands_mem]
    constructor
    · rintro ⟨h1, h2⟩
      exact ⟨starts_mem.mp h1, h2⟩
    · rintro ⟨h1, h2⟩
      exact ⟨starts_mem.mpr h1, h2⟩
  · refine mkCands_flatMap ?_
    unfold starts
    split
    · exact List.nodup_range _
    · exact List.nodup_nil
  · unfold starts
    split
    · exact List.pairwise_lt_range _
    · exact List.Pairwise.nil
  · intro br h
    exact firstFit_some h
  · exact firstFit_none_iff

/-- C7 witness: for a length-1 request on an empty 2 × 2 grid the first
candidate is chosen; on a full 1 × 1 grid no candidate is free. -/
theorem C7_witness :
    (∃ pre post,
      (mkCands 2 sigmaId (starts 2 1) 0).1 = pre ++ (0, 0) :: post ∧
      runFree (emptyGrid 2 2) 0 0 1 = true ∧
      ∀ x ∈ pre, runFree (emptyGrid 2 2) x.1 x.2 1 = false) ∧
    (placeReq 1 1 [[some "Z"]] 1 sigmaId 0).1 = none := by
  constructor
  · exact (C7_first_fit_order 2 2 (emptyGrid 2 2) 1 sigmaId 0).2.2.2.1
      (0, 0) (by decide)
  · exact (C7_first_fit_order 1 1 [[some "Z"]] 1 sigmaId 0).2.2.2.2.mpr
      (by decide)

/-- C10: over-long request edge case.  A request longer than the number
of blocks has no candidates: within capacity the primary run always ends
in `PlacementFailed` (for every number of tries and every random
sequence); the fill pass always reports such a request's name in
`leftover`, and every cell of the fill output either keeps its input
value or holds the name of a request whose length fits in the block
dimension — so an over-long request never changes the grid. -/
theorem C10_overlong (blocks rooms maxTries : Nat) (wgroups bofs : List Req)
    (strat : String) (σ σ2 : Draws) (k k2 : Nat) (grid : Grid)
    (name : String) (L : Nat) (hL : blocks < L)
    (hcap : (wgroups.map (fun x => x.2)).sum ≤ blocks * rooms)
    (hm : 1 ≤ maxTries) :
    ((name, L) ∈ wgroups →
      ∃ n2 k3, greedy_place_wgroups blocks rooms wgroups maxTries strat σ k =
        (.placementFailed n2 maxTries, k3)) ∧
    ((name, L) ∈ bofs →
      name ∈ (fill_bofs blocks rooms grid bofs strat σ2 k2).1.2) ∧
    (∀ b r, cellAt (fill_bofs blocks rooms grid bofs strat σ2 k2).1.1 b r =
        cellAt grid b r ∨
      ∃ m l2, (m, l2) ∈ bofs ∧ l2 ≤ blocks ∧
        cellAt (fill_bofs blocks rooms grid bofs strat σ2 k2).1.1 b r =
          some m) := by
  refine ⟨?_, ?_, ?_⟩
  · intro hmem
    have H : ∀ kp, ∃ m,
        (attemptOnce blocks rooms strat σ wgroups kp).1 = .error m :=
      fun kp => attemptOnce_overlong hmem hL kp
    obtain ⟨n2, kq, k3, heq, _⟩ := greedyLoop_allFail H maxTries 1 k hm
    have harith : 1 + maxTries - 1 = maxTries := by omega
    rw [harith] at heq
    refine ⟨n2, k3, ?_⟩
    unfold greedy_place_wgroups
    rw [if_neg (Nat.not_lt.mpr hcap)]
    exact heq
  · intro hmem
    unfold fill_bofs
    have hperm : (sortStrategy strat (pickPerm (σ2 k2) bofs)).Perm bofs :=
      (sortStrategy_perm _ _).trans (pickPerm_perm _ _)
    exact fillLoop_overlong hL _ (hperm.mem_iff.mpr hmem) grid (k2 + 1)
  · intro b r
    unfold fill_bofs
    have hperm : (sortStrategy strat (pickPerm (σ2 k2) bofs)).Perm bofs :=
      (sortStrategy_perm _ _).trans (pickPerm_perm _ _)
    rcases fillLoop_cells (sortStrategy strat (pickPerm (σ2 k2) bofs)) grid
      (k2 + 1) b r with h | ⟨m, l2, hmem, hl2, hcell⟩
    · exact Or.inl h
    · exact Or.inr ⟨m, l2, hperm.mem_iff.mp hmem, hl2, hcell⟩

/-- C10 witness: a length-3 request on a 2 × 2 grid (within capacity)
fails the primary run, lands in the fill leftover, and leaves the fill
grid's cells unchanged or owned by a fitting request. -/
theorem C10_witness :
    (∃ n2 k3, greedy_place_wgroups 2 2 [("A", 3)] 1 "as_is" sigmaId 0 =
      (.placementFailed n2 1, k3)) ∧
    "A" ∈ (fill_bofs 2 2 (emptyGrid 2 2) [("A", 3)] "as_is" sigmaId 0).1.2 ∧
    (cellAt (fill_bofs 2 2 (emptyGrid 2 2) [("A", 3)] "as_is"
        sigmaId 0).1.1 0 0 = cellAt (emptyGrid 2 2) 0 0 ∨
      ∃ m l2, (m, l2) ∈ [(("A" : String), 3)] ∧ l2 ≤ 2 ∧
        cellAt (fill_bofs 2 2 (emptyGrid 2 2) [("A", 3)] "as_is"
          sigmaId 0).1.1 0 0 = some m) := by
  have h := C10_overlong 2 2 1 [("A", 3)] [("A", 3)] "as_is" sigmaId sigmaId
    0 0 (emptyGrid 2 2) "A" 3 (by decide) (by decide) (by decide)
  exact ⟨h.1 (by decide), h.2.1 (by decide), h.2.2 0 0⟩

end Scheduler
